import Mathlib

/-!
# Verification of the BluePeak strategy-generation core

A shallow embedding, over lists of characters, of the context-blob
assembler and file-extraction loop of api/file-processing.js, the
tolerant XML-ish response parser of api/strategy.js, and the
extended-thinking retry wrapper of api/strategy.js, together with
theorems settling the frozen claims about them.

Strings are modelled as List Char. JavaScript string methods and the
specific regular expressions used by the source are translated into
structural (or fuel-bounded, with sufficient fuel) recursions, keeping
the leftmost-match and greedy/lazy semantics of the originals.
-/

/-- Strings of the embedded program: JavaScript strings as char lists. -/
abbrev Str := List Char

/-- Literal helper: a Lean string literal as a Str. -/
def strg (s : String) : Str := s.toList

/-- JS toLowerCase on a character (ASCII-relevant range). -/
def toLowerCh (c : Char) : Char := c.toLower

/-- JS toLowerCase on a string. -/
def toLowerStr (s : Str) : Str := s.map toLowerCh

/-- JS toUpperCase on a string. -/
def toUpperStr (s : Str) : Str := s.map Char.toUpper

/-- The whitespace class used by JS trim and the \s regex class. -/
def wsCh (c : Char) : Bool := c.isWhitespace

/-- JS String.prototype.trimStart. -/
def trimLeft (s : Str) : Str := s.dropWhile wsCh

/-- JS String.prototype.trimEnd. -/
def trimRight (s : Str) : Str := (s.reverse.dropWhile wsCh).reverse

/-- JS String.prototype.trim. -/
def jsTrim (s : Str) : Str := trimRight (trimLeft s)

/-- JS split on the newline character. -/
def splitOnNl : Str → List Str
  | [] => [[]]
  | c :: rest =>
    if c = '\n' then [] :: splitOnNl rest
    else
      match splitOnNl rest with
      | [] => [[c]]
      | l :: ls => (c :: l) :: ls

/-- Drop an exact (case-sensitive) pattern from the front, JS indexOf-style
matching step. Returns the remainder on success. -/
def dropPfxX : Str → Str → Option Str
  | [], s => some s
  | _ :: _, [] => none
  | p :: ps, c :: cs => if p = c then dropPfxX ps cs else none

/-- Drop a lowercase pattern from the front comparing case-insensitively,
the matching step of a regex with the i flag. -/
def dropPfxCI : Str → Str → Option Str
  | [], s => some s
  | _ :: _, [] => none
  | p :: ps, c :: cs => if p = toLowerCh c then dropPfxCI ps cs else none

/-- Leftmost exact substring search: on success returns the text before the
pattern and the text after it, like indexOf plus slicing. -/
def splitAtSubstrX (pat : Str) : Str → Option (Str × Str)
  | [] => match dropPfxX pat [] with
    | some r => some ([], r)
    | none => none
  | c :: rest =>
    match dropPfxX pat (c :: rest) with
    | some r => some ([], r)
    | none =>
      match splitAtSubstrX pat rest with
      | some (b, a) => some (c :: b, a)
      | none => none

/-- Leftmost case-insensitive substring search (lowercase pattern). -/
def splitAtSubstrCI (pat : Str) : Str → Option (Str × Str)
  | [] => match dropPfxCI pat [] with
    | some r => some ([], r)
    | none => none
  | c :: rest =>
    match dropPfxCI pat (c :: rest) with
    | some r => some ([], r)
    | none =>
      match splitAtSubstrCI pat rest with
      | some (b, a) => some (c :: b, a)
      | none => none

/-- Index of the leftmost case-insensitive occurrence, JS
lowerText.indexOf(tag) with a lowercase needle. -/
def idxOfSubstrCI (pat : Str) (s : Str) : Option Nat :=
  match splitAtSubstrCI pat s with
  | some (b, _) => some b.length
  | none => none

/-- JS String.prototype.includes with an exact pattern. -/
def containsSubstr (pat : Str) (s : Str) : Bool :=
  (splitAtSubstrX pat s).isSome

/-- Global replacement of every match of the regex <[^>]+> by a single
replacement character, JS text.replace semantics: at each unconsumed <
the greedy [^>]+ runs to the first following >, needing at least one
character in between; failed attempts keep the < and move on. -/
def replaceTags (repl : Char) : Nat → Str → Str
  | 0, s => s
  | _ + 1, [] => []
  | f + 1, c :: rest =>
    if c = '<' then
      match rest.dropWhile (fun x => ¬ (x = '>')) with
      | '>' :: r2 =>
        if rest.takeWhile (fun x => ¬ (x = '>')) = [] then
          '<' :: replaceTags repl f rest
        else repl :: replaceTags repl f r2
      | _ => '<' :: replaceTags repl f rest
    else c :: replaceTags repl f rest

/-- Global replacement of every whitespace run by one space, the JS
replace of \s+ by a space. The flag records whether the previous
character was part of a run already replaced. -/
def collapseWsAux : Bool → Str → Str
  | _, [] => []
  | prevWs, c :: rest =>
    if wsCh c then
      if prevWs then collapseWsAux true rest
      else ' ' :: collapseWsAux true rest
    else c :: collapseWsAux false rest

/-- text.replace of the \s+ regex (global) by a single space. -/
def collapseWs (s : Str) : Str := collapseWsAux false s

/-- Word counting: number of maximal nonempty runs of non-whitespace,
the split-on-whitespace count used by the repository (App.jsx
countWords: trim, split on \s+, filter nonempty, length). -/
def wcAux : Bool → Str → Nat
  | _, [] => 0
  | inWord, c :: rest =>
    if wsCh c then wcAux false rest
    else (if inWord then 0 else 1) + wcAux true rest

/-- The single word-count definition of the repository. -/
def wordCount (s : Str) : Nat := wcAux false s

/-- JS endsWith for a question mark. -/
def endsWithQ (s : Str) : Bool :=
  match s.reverse with
  | c :: _ => c = '?'
  | [] => false

/-!
## api/strategy.js: question normalization and derivation
-/

/-- The constant MAX_FALLBACK_QUESTIONS of api/strategy.js. -/
def MAX_FALLBACK_QUESTIONS : Nat := 10

/-- First anchored replacement of sanitizeQuestionLine: strip the leading
list-marker run, up to two digits, one optional punctuation mark from
the class with the closing parenthesis, dot, colon and dash, and
trailing whitespace. All parts are optional and matched greedily in
order, as the JS regex does. -/
def stripListMarker (s : Str) : Str :=
  let s1 := s.dropWhile (fun c => c = '-' || c = '*' || c = '•' || c = '>' || wsCh c)
  let s2 :=
    match s1 with
    | c :: d :: r =>
      if c.isDigit then (if d.isDigit then r else d :: r) else c :: d :: r
    | [c] => if c.isDigit then [] else [c]
    | [] => []
  let s3 :=
    match s2 with
    | c :: r => if c = ')' || c = '.' || c = ':' || c = '-' then r else s2
    | [] => s2
  s3.dropWhile wsCh

/-- Second anchored replacement of sanitizeQuestionLine: strip a leading
case-insensitive question label followed by optional whitespace, one
colon, dot or dash, and optional whitespace; no change if the full
pattern is absent. -/
def stripQuestionLabel (s : Str) : Str :=
  match dropPfxCI (strg "question") s with
  | none => s
  | some r =>
    match r.dropWhile wsCh with
    | c :: r2 => if c = ':' || c = '.' || c = '-' then r2.dropWhile wsCh else s
    | [] => s

/-- Third anchored replacement of sanitizeQuestionLine: strip one leading
uppercase letter followed by a closing parenthesis and whitespace. -/
def stripLetterBullet (s : Str) : Str :=
  match s with
  | c :: d :: r =>
    if c.isUpper && d = ')' then r.dropWhile wsCh else s
  | _ => s

/-- Global removal of every pair of consecutive asterisks, the bold-markup
replacement of sanitizeQuestionLine. -/
def removeBold : Str → Str
  | [] => []
  | '*' :: '*' :: r => removeBold r
  | c :: r => c :: removeBold r

/-- sanitizeQuestionLine of api/strategy.js. -/
def sanitizeQuestionLine (line : Str) : Str :=
  jsTrim (removeBold (stripLetterBullet (stripQuestionLabel (stripListMarker line))))

/-- normalizeQuestionText of api/strategy.js. -/
def normalizeQuestionText (text : Str) : Str :=
  if text = [] then []
  else
    let withoutTags := replaceTags ' ' (text.length + 1) text
    let sanitized := sanitizeQuestionLine (collapseWs withoutTags)
    if sanitized = [] then []
    else
      let trimmed := jsTrim (collapseWs sanitized)
      if trimmed = [] then []
      else if endsWithQ trimmed then trimmed
      else
        let upto := (trimmed.reverse.dropWhile (fun c => ¬ (c = '?'))).reverse
        if upto = [] then trimmed ++ ['?'] else jsTrim upto

/-- The per-line loop of deriveQuestionsFromText: normalize each line,
skip empties, deduplicate by lowercased text, and break once the
collected count reaches MAX_FALLBACK_QUESTIONS. The counter cnt is the
number of questions collected so far. -/
def deriveLoop (seen : List Str) (cnt : Nat) : List Str → List Str
  | [] => []
  | line :: rest =>
    let n := normalizeQuestionText line
    if n = [] then deriveLoop seen cnt rest
    else
      let key := toLowerStr n
      if seen.contains key then
        if MAX_FALLBACK_QUESTIONS ≤ cnt then [] else deriveLoop seen cnt rest
      else
        n :: (if MAX_FALLBACK_QUESTIONS ≤ cnt + 1 then []
              else deriveLoop (key :: seen) (cnt + 1) rest)

/-- deriveQuestionsFromText of api/strategy.js: replace every tag by a
newline, split into lines and run the normalization loop. -/
def deriveQuestionsFromText (rawText : Str) : List Str :=
  if jsTrim rawText = [] then []
  else deriveLoop [] 0 (splitOnNl (replaceTags '\n' (rawText.length + 1) rawText))

/-!
## api/strategy.js: tag matching and the response parser
-/

/-- Attempt, at the current position, to match the opening-tag regex of
extractTagContent and extractSectionContent: the lowercase tag name
after an angle bracket, then either the closing angle directly or one
whitespace character, any characters other than the closing angle, and
the closing angle. Returns the text after the opening tag. -/
def tryTagOpenAt (tag : Str) (s : Str) : Option Str :=
  match dropPfxCI ('<' :: tag) s with
  | none => none
  | some r =>
    match r with
    | '>' :: r2 => some r2
    | c :: r2 =>
      if wsCh c then
        match r2.dropWhile (fun x => ¬ (x = '>')) with
        | '>' :: r3 => some r3
        | _ => none
      else none
    | [] => none

/-- Leftmost successful opening-tag match; returns the text after it. -/
def findOpenRest (tag : Str) : Str → Option Str
  | [] => none
  | c :: rest =>
    match tryTagOpenAt tag (c :: rest) with
    | some r => some r
    | none => findOpenRest tag rest

/-- containsOpenTag: the hasTag regex of api/strategy.js, a lowercase tag
name after an angle bracket followed by whitespace or the closing
angle, matched case-insensitively anywhere in the text. -/
def containsOpenTag (tag : Str) : Str → Bool
  | [] => false
  | c :: rest =>
    (match dropPfxCI ('<' :: tag) (c :: rest) with
     | some (d :: _) => wsCh d || d = '>'
     | _ => false) || containsOpenTag tag rest

/-- hasTag of api/strategy.js (argument order of the source). -/
def hasTag (text tag : Str) : Bool := containsOpenTag tag text

/-- extractTagContent of api/strategy.js: content of the leftmost
occurrence of the tag with both opening and closing present, trimmed;
empty when no such occurrence exists. A position whose opening matches
but that has no later closing tag fails, and scanning resumes at the
next character, as regex scanning does. -/
def extractTagContent (tag : Str) : Str → Str
  | [] => []
  | c :: rest =>
    match tryTagOpenAt tag (c :: rest) with
    | some r =>
      (match splitAtSubstrCI ('<' :: '/' :: (tag ++ ['>'])) r with
       | some (content, _) => jsTrim content
       | none => extractTagContent tag rest)
    | none => extractTagContent tag rest

/-- SECTION_SEQUENCE of api/strategy.js. -/
def SECTION_SEQUENCE : List Str :=
  [strg "proposal", strg "content_strategy", strg "sample_ads"]

/-- The section names strictly after the given one in SECTION_SEQUENCE
(empty when the name is absent, mirroring the indexOf computation). -/
def sectionsAfter (tag : Str) : List Str :=
  (SECTION_SEQUENCE.dropWhile (fun s => ¬ (s = tag))).tail

/-- extractSectionContent of api/strategy.js: find the leftmost opening
tag; take the text up to the first closing tag if one follows,
otherwise up to the earliest of the next known section openings or the
closing of the outer full_plan wrapper or the end of text; trim. -/
def extractSectionContent (tag : Str) (text : Str) : Str :=
  match findOpenRest tag text with
  | none => []
  | some r =>
    match splitAtSubstrCI ('<' :: '/' :: (tag ++ ['>'])) r with
    | some (content, _) => jsTrim content
    | none =>
      let nextTags := (sectionsAfter tag).map (fun n => '<' :: n) ++ [strg "</full_plan"]
      let fallbackEnd := nextTags.foldl (fun acc t =>
        match idxOfSubstrCI t r with
        | some i => if i < acc then i else acc
        | none => acc) r.length
      jsTrim (r.take fallbackEnd)

/-- Attempt, at the current position, to match the question regex of the
clarification branch: the word question after an angle bracket, any
characters other than the closing angle, the closing angle, then the
lazily matched content up to the first closing question tag. Returns
the captured content and the remainder after the full match. -/
def tryQuestionAt (s : Str) : Option (Str × Str) :=
  match dropPfxCI (strg "<question") s with
  | none => none
  | some r1 =>
    match r1.dropWhile (fun c => ¬ (c = '>')) with
    | '>' :: r2 => splitAtSubstrCI (strg "</question>") r2
    | _ => none

/-- The global-regex loop over question matches: leftmost matches, each
scan resuming after the previous full match; a failed position advances
by one character. The fuel is at least the text length plus one, and
each step consumes at least one character. -/
def findQuestionMatches : Nat → Str → List Str
  | 0, _ => []
  | _ + 1, [] => []
  | fuel + 1, c :: rest =>
    match tryQuestionAt (c :: rest) with
    | some (content, remainder) => content :: findQuestionMatches fuel remainder
    | none => findQuestionMatches fuel rest

/-- All captures of the question regex over the reply text. -/
def taggedQuestions (text : Str) : List Str := findQuestionMatches (text.length + 1) text

/-- The addQuestion closure of the clarification branch, folded over a
list of raw candidates: normalize, skip empties, deduplicate by
lowercased text against the seen set, keep first-seen order. Returns
the extended seen set and the questions added. -/
def addAll (seen : List Str) : List Str → (List Str × List Str)
  | [] => (seen, [])
  | raw :: rest =>
    let n := normalizeQuestionText raw
    if n = [] then addAll seen rest
    else
      let key := toLowerStr n
      if seen.contains key then addAll seen rest
      else
        let p := addAll (key :: seen) rest
        (p.1, n :: p.2)

/-- The fixed placeholder question of the clarification branch. -/
def placeholderQuestion : Str :=
  strg "BluePeak-AI requested clarification but did not return specific questions. Please refine your client brief and resubmit."

/-- The fallback source chain of the clarification branch: the questions
block if it yields text, else the clarification block, else the whole
reply (JS truthiness of the empty string drives the chain). -/
def fallbackSource (text : Str) : Str :=
  let a := extractTagContent (strg "questions") text
  if a = [] then
    let b := extractTagContent (strg "clarification_needed") text
    if b = [] then text else b
  else a

/-- The full question list of the clarification branch: tagged questions
first, then fallback-derived ones, shared dedup state, and the fixed
placeholder when nothing survives. -/
def clarQuestions (text : Str) : List Str :=
  let p1 := addAll [] (taggedQuestions text)
  let p2 := addAll p1.1 (deriveQuestionsFromText (fallbackSource text))
  let qs := p1.2 ++ p2.2
  if qs = [] then [placeholderQuestion] else qs

/-- The thinking block: leftmost case-sensitive opening, earliest closing
after it, trimmed; null when either is absent. -/
def thinkingOf (text : Str) : Option Str :=
  match splitAtSubstrX (strg "<thinking>") text with
  | none => none
  | some (_, r) =>
    match splitAtSubstrX (strg "</thinking>") r with
    | none => none
    | some (content, _) => some (jsTrim content)

/-- The parsed-response object of parseXMLResponse: a JS object with a
type tag and the fields of the chosen variant; absent fields are none,
and the present-but-null thinking field is some none. -/
structure ParsedResponse where
  type : Str
  message : Option Str := none
  thinking : Option (Option Str) := none
  questions : Option (List Str) := none
  proposal : Option Str := none
  contentStrategy : Option Str := none
  sampleAds : Option Str := none
deriving DecidableEq, Repr

/-- The clarification_needed outcome object. -/
def clarResp (text : Str) : ParsedResponse :=
  { type := strg "clarification_needed"
    thinking := some (thinkingOf text)
    questions := some (clarQuestions text) }

/-- The full_plan outcome object. -/
def fullPlanResp (text : Str) : ParsedResponse :=
  { type := strg "full_plan"
    thinking := some (thinkingOf text)
    proposal := some (extractSectionContent (strg "proposal") text)
    contentStrategy := some (extractSectionContent (strg "content_strategy") text)
    sampleAds := some (extractSectionContent (strg "sample_ads") text) }

/-- The cannot_proceed outcome object, with the message block or the
fixed refusal text. -/
def cannotProceedResp (text : Str) : ParsedResponse :=
  { type := strg "cannot_proceed"
    thinking := some (thinkingOf text)
    message := some
      (match splitAtSubstrX (strg "<message>") text with
       | none => strg "Cannot proceed without additional information."
       | some (_, r) =>
         match splitAtSubstrX (strg "</message>") r with
         | none => strg "Cannot proceed without additional information."
         | some (content, _) => jsTrim content) }

/-- parseXMLResponse of api/strategy.js. -/
def parseXMLResponse (text : Str) : ParsedResponse :=
  if jsTrim text = [] then
    { type := strg "error"
      message := some (strg "Claude returned an empty response. Please check the server logs for details.") }
  else if hasTag text (strg "clarification_needed") = true then clarResp text
  else if hasTag text (strg "full_plan") = true then fullPlanResp text
  else if hasTag text (strg "cannot_proceed") = true then cannotProceedResp text
  else
    { type := strg "error"
      message := some (strg "Could not parse AI response. Please try again.") }

/-!
## api/file-processing.js: extraction adapter and context blob
-/

/-- A multipart form field value: a string, an array, or anything else,
as normalizeTextInput distinguishes them. -/
inductive FieldValue where
  | fstr (s : Str)
  | farr (items : List FieldValue)
  | fother
deriving Repr

/-- Whether a field value is a string, with its contents. -/
def FieldValue.asStr : FieldValue → Option Str
  | .fstr s => some s
  | _ => none

/-- normalizeTextInput of api/file-processing.js: a string is returned
as is, the first string of an array is returned, anything else gives
the empty string. -/
def normalizeTextInput : FieldValue → Str
  | .fstr s => s
  | .farr items => ((items.map FieldValue.asStr).reduceOption.head?).getD []
  | .fother => []

/-- An entry produced by parseUploadedFiles: text content, an inline
image, a directly submitted pdf document, or a per-file error record. -/
inductive ParsedFile where
  | text (filename content : Str)
  | image (filename data mimeType : Str)
  | pdf (filename data : Str)
  | error (filename errMsg : Str)
deriving DecidableEq, Repr

/-- formatFileHeader of api/file-processing.js: uppercase the filename and
replace every character outside the uppercase letters and digits by an
underscore. -/
def formatFileHeader (filename : Str) : Str :=
  (toUpperStr filename).map (fun c =>
    if ('A' ≤ c ∧ c ≤ 'Z') ∨ ('0' ≤ c ∧ c ≤ '9') then c else '_')

/-- The text appended to the blob for one parsed file: delimited content
for text entries, a delimited error block for error entries, nothing
for images and pdfs. -/
def fileChunk : ParsedFile → Str
  | .text fn content =>
    strg "---START_" ++ formatFileHeader fn ++ strg "---\n" ++ content
      ++ strg "\n---END_" ++ formatFileHeader fn ++ strg "---\n\n"
  | .error fn msg =>
    strg "---ERROR_PARSING_" ++ formatFileHeader fn ++ strg "---\nError: "
      ++ (if msg = [] then strg "Unknown error" else msg) ++ strg "\n\n"
  | _ => []

/-- The result object of buildContextBlob. -/
structure ContextBlob where
  blob : Str
  images : List ParsedFile
  pdfs : List ParsedFile
deriving DecidableEq, Repr

/-- Whether an entry is an image. -/
def ParsedFile.isImage : ParsedFile → Bool
  | .image _ _ _ => true
  | _ => false

/-- Whether an entry is a pdf document. -/
def ParsedFile.isPdf : ParsedFile → Bool
  | .pdf _ _ => true
  | _ => false

/-- buildContextBlob of api/file-processing.js: the pasted text wrapped in
its delimiters when its trim is nonempty, then for each parsed file in
order its chunk appended to the blob, with images and pdfs returned as
side lists. -/
def buildContextBlob (textInput : FieldValue) (parsedFiles : List ParsedFile) : ContextBlob :=
  let normalizedInput := normalizeTextInput textInput
  let b0 : Str :=
    if jsTrim normalizedInput = [] then []
    else strg "---START_PASTED_TEXT---\n" ++ normalizedInput ++ strg "\n---END_PASTED_TEXT---\n\n"
  { blob := parsedFiles.foldl (fun b f => b ++ fileChunk f) b0
    images := parsedFiles.filter ParsedFile.isImage
    pdfs := parsedFiles.filter ParsedFile.isPdf }

/-- An uploaded file handle as formidable provides it: the original
filename, the fallback name, and the temporary filesystem path. -/
structure UploadedFile where
  originalFilename : Option Str := none
  name : Option Str := none
  filepath : Option Str := none

/-- The oracles for the effectful extraction operations: file size from
stat (none models a thrown stat error), file reads, base64 encoding,
and the three format decoders, each able to throw with a message. -/
structure ExtractEnv where
  statSize : Str → Option Nat
  readFile : Str → Except Str Str
  toBase64 : Str → Str
  pdfParse : Str → Except Str Str
  mammothExtract : Str → Except Str Str
  xlsxFirstSheetCsv : Str → Except Str Str

/-- JS or-with-default over an optional string field: the default is used
when the field is absent or empty. -/
def jsOrStr (o : Option Str) (d : Str) : Str :=
  match o with
  | some s => if s = [] then d else s
  | none => d

/-- The filename chosen by parseUploadedFiles for one file. -/
def filenameOf (f : UploadedFile) : Str :=
  jsOrStr f.originalFilename (jsOrStr f.name (strg "upload"))

/-- The lowercased extension: the part after the last dot, or the whole
name when no dot is present, as split-pop computes it. -/
def extOf (fn : Str) : Str :=
  toLowerStr ((fn.reverse.takeWhile (fun c => ¬ (c = '.'))).reverse)

/-- The text extensions read verbatim. -/
def TEXT_EXTENSIONS : List Str := [strg "txt", strg "md", strg "csv"]

/-- The image extensions submitted directly. -/
def IMAGE_EXTENSIONS : List Str := [strg "jpg", strg "jpeg", strg "png", strg "gif"]

/-- qualifiesForDirectPDF of api/file-processing.js: a present path whose
stat succeeds with a size below 32 megabytes; stat failures are caught
and give false. -/
def qualifiesForDirectPDF (env : ExtractEnv) (f : UploadedFile) : Bool :=
  match f.filepath with
  | none => false
  | some p =>
    if p = [] then false
    else
      match env.statSize p with
      | none => false
      | some size => size < 32 * 1024 * 1024

/-- The MIME type inferred from the extension for image uploads. -/
def mimeFor (ext : Str) : Str :=
  if ext = strg "png" then strg "image/png"
  else if ext = strg "gif" then strg "image/gif"
  else strg "image/jpeg"

/-- The try block of the per-file loop of parseUploadedFiles: dispatch on
the extension and produce this file's entries, or throw the message of
whichever operation failed. An unsupported extension yields no entry. -/
def processFile (env : ExtractEnv) (file : UploadedFile) : Except Str (List ParsedFile) :=
  let filename := filenameOf file
  let ext := extOf filename
  match file.filepath with
  | none => .error (strg "Missing temporary filepath for uploaded file")
  | some path =>
    if path = [] then .error (strg "Missing temporary filepath for uploaded file")
    else if ext = strg "pdf" then
      if qualifiesForDirectPDF env file then
        match env.readFile path with
        | .error e => .error e
        | .ok bytes => .ok [ParsedFile.pdf filename (env.toBase64 bytes)]
      else
        match env.readFile path with
        | .error e => .error e
        | .ok buffer =>
          match env.pdfParse buffer with
          | .error e => .error e
          | .ok data => .ok [ParsedFile.text filename data]
    else if ext = strg "docx" then
      match env.readFile path with
      | .error e => .error e
      | .ok buffer =>
        match env.mammothExtract buffer with
        | .error e => .error e
        | .ok v => .ok [ParsedFile.text filename v]
    else if ext = strg "xlsx" || ext = strg "xls" then
      match env.xlsxFirstSheetCsv path with
      | .error e => .error e
      | .ok csv => .ok [ParsedFile.text filename csv]
    else if TEXT_EXTENSIONS.contains ext then
      match env.readFile path with
      | .error e => .error e
      | .ok t => .ok [ParsedFile.text filename t]
    else if IMAGE_EXTENSIONS.contains ext then
      match env.readFile path with
      | .error e => .error e
      | .ok bytes => .ok [ParsedFile.image filename (env.toBase64 bytes) (mimeFor ext)]
    else .ok []

/-- One loop iteration of parseUploadedFiles: a missing (falsy) file is
skipped, a successful try contributes its entries, and a caught
exception contributes one error entry with the filename and the
message (or the fixed unknown-error text for an empty message). -/
def entriesFor (env : ExtractEnv) : Option UploadedFile → List ParsedFile
  | none => []
  | some f =>
    match processFile env f with
    | .ok entries => entries
    | .error msg =>
      [ParsedFile.error (filenameOf f) (if msg = [] then strg "Unknown error parsing upload" else msg)]

/-- parseUploadedFiles of api/file-processing.js: the per-file loop,
appending each iteration's entries to the result in order. -/
def parseUploadedFiles (env : ExtractEnv) : List (Option UploadedFile) → List ParsedFile
  | [] => []
  | f :: rest => entriesFor env f ++ parseUploadedFiles env rest

/-!
## api/strategy.js: extended-thinking retry wrapper
-/

/-- The extended-thinking request parameter. -/
structure ThinkingConfig where
  budgetTokens : Nat
deriving DecidableEq, Repr

/-- An error raised by the completion endpoint, with the optional nested
error message and the optional top-level message, as
extractErrorMessage reads them. -/
structure ApiError where
  innerMessage : Option Str := none
  message : Option Str := none
deriving DecidableEq, Repr

/-- extractErrorMessage of api/strategy.js. -/
def extractErrorMessage (e : ApiError) : Str :=
  match e.innerMessage with
  | some s => s
  | none =>
    match e.message with
    | some s => s
    | none => []

/-- shouldRetryWithoutThinking of api/strategy.js: false when the thinking
configuration is absent or the lowercased message is empty, else true
exactly when one of the reasoning-related keywords occurs in it. -/
def shouldRetryWithoutThinking (cfg : Option ThinkingConfig) (e : ApiError) : Bool :=
  match cfg with
  | none => false
  | some _ =>
    let message := toLowerStr (extractErrorMessage e)
    if message = [] then false
    else
      containsSubstr (strg "thinking") message
      || containsSubstr (strg "budget_tokens") message
      || containsSubstr (strg "unknown key: thinking") message
      || containsSubstr (strg "extended thinking") message
      || containsSubstr (strg "parameter thinking") message

/-- The completion call of the handler: the first request carries the
thinking configuration when one is enabled; on an error for which
shouldRetryWithoutThinking holds, the call is repeated once without
the configuration, and every other error propagates unmodified. The
create oracle is the endpoint, applied to the thinking parameter of
the otherwise fixed request. -/
def createMessageWithRetry {M : Type} (cfg : Option ThinkingConfig)
    (create : Option ThinkingConfig → Except ApiError M) : Except ApiError M :=
  match create cfg with
  | .ok m => .ok m
  | .error e =>
    if shouldRetryWithoutThinking cfg e = true then create none
    else .error e

/-!
## Helper lemmas
-/

theorem dropWhile_nil_all {p : Char → Bool} :
    ∀ l : Str, l.dropWhile p = [] → ∀ c ∈ l, p c = true := by
  intro l
  induction l with
  | nil => intro _ c hc; cases hc
  | cons a t ih =>
    intro h c hc
    rw [List.dropWhile_cons] at h
    by_cases ha : p a = true
    · rcases List.mem_cons.mp hc with rfl | hct
      · exact ha
      · exact ih (by simpa [ha] using h) c hct
    · simp [ha] at h

theorem mem_dropWhile_of_neg {p : Char → Bool} :
    ∀ l : Str, ∀ c ∈ l, p c = false → c ∈ l.dropWhile p := by
  intro l
  induction l with
  | nil => intro c hc; cases hc
  | cons a t ih =>
    intro c hc hpc
    rw [List.dropWhile_cons]
    by_cases ha : p a = true
    · rcases List.mem_cons.mp hc with rfl | hct
      · rw [ha] at hpc; cases hpc
      · simpa [ha] using ih c hct hpc
    · simp only [Bool.not_eq_true] at ha
      simp [ha, hc]

theorem jsTrim_ne_of_mem {c : Char} {l : Str}
    (hc : c ∈ l) (hw : wsCh c = false) : jsTrim l ≠ [] := by
  intro h
  unfold jsTrim trimRight trimLeft at h
  have h2 : (trimLeft l).reverse.dropWhile wsCh = [] := by
    have := congrArg List.reverse h
    simpa using this
  have hmem : c ∈ trimLeft l := mem_dropWhile_of_neg l c hc hw
  have hmemr : c ∈ (trimLeft l).reverse := List.mem_reverse.mpr hmem
  have := dropWhile_nil_all _ h2 c hmemr
  rw [hw] at this
  cases this

theorem wsCh_toLower_ne {c : Char} (h : wsCh c = true) : toLowerCh c ≠ '<' := by
  have hd : ((c = ' ' ∨ c = '\t') ∨ c = '\r') ∨ c = '\n' := by
    have := h
    unfold wsCh Char.isWhitespace at this
    simpa [Bool.or_eq_true, decide_eq_true_eq] using this
  rcases hd with ((rfl | rfl) | rfl) | rfl <;> decide

theorem dropPfxCI_cons {p : Char} {ps : Str} {c : Char} {cs r : Str}
    (h : dropPfxCI (p :: ps) (c :: cs) = some r) : p = toLowerCh c := by
  by_cases hpc : p = toLowerCh c
  · exact hpc
  · unfold dropPfxCI at h
    rw [if_neg hpc] at h
    cases h

theorem containsOpenTag_mem {tag : Str} :
    ∀ text : Str, containsOpenTag tag text = true → ∃ c ∈ text, wsCh c = false := by
  intro text
  induction text with
  | nil => intro h; cases h
  | cons a rest ih =>
    intro h
    unfold containsOpenTag at h
    rcases Bool.or_eq_true_iff.mp h with h1 | h2
    · have ha : wsCh a = false := by
        cases hd : dropPfxCI ('<' :: tag) (a :: rest) with
        | none => rw [hd] at h1; cases h1
        | some r =>
          have : ('<' : Char) = toLowerCh a := dropPfxCI_cons hd
          by_cases hw : wsCh a = true
          · exact absurd this.symm (by simpa using wsCh_toLower_ne hw)
          · simpa using hw
      exact ⟨a, List.mem_cons_self a rest, ha⟩
    · obtain ⟨c, hc, hw⟩ := ih h2
      exact ⟨c, List.mem_cons_of_mem a hc, hw⟩

theorem hasTag_false_of_ws (text tag : Str) (h : jsTrim text = []) :
    hasTag text tag = false := by
  cases hc : hasTag text tag with
  | false => rfl
  | true =>
    obtain ⟨c, hmem, hw⟩ := containsOpenTag_mem text hc
    exact absurd h (jsTrim_ne_of_mem hmem hw)

theorem hasTag_trim_ne {text tag : Str} (h : hasTag text tag = true) :
    ¬ (jsTrim text = []) := by
  intro h0
  rw [hasTag_false_of_ws text tag h0] at h
  cases h

theorem clarQuestions_ne_nil (text : Str) : clarQuestions text ≠ [] := by
  unfold clarQuestions
  by_cases h : (addAll [] (taggedQuestions text)).2
      ++ (addAll (addAll [] (taggedQuestions text)).1
        (deriveQuestionsFromText (fallbackSource text))).2 = []
  · simp only [h, if_pos]
    exact List.cons_ne_nil _ _
  · simp only [if_neg h]
    exact h

/-- The five-way branch structure of parseXMLResponse. -/
theorem parseXMLResponse_branches (text : Str) :
    (jsTrim text = [] ∧ parseXMLResponse text =
      { type := strg "error"
        message := some (strg "Claude returned an empty response. Please check the server logs for details.") })
    ∨ (¬ jsTrim text = [] ∧ hasTag text (strg "clarification_needed") = true
        ∧ parseXMLResponse text = clarResp text)
    ∨ (¬ jsTrim text = [] ∧ hasTag text (strg "clarification_needed") = false
        ∧ hasTag text (strg "full_plan") = true
        ∧ parseXMLResponse text = fullPlanResp text)
    ∨ (¬ jsTrim text = [] ∧ hasTag text (strg "clarification_needed") = false
        ∧ hasTag text (strg "full_plan") = false
        ∧ hasTag text (strg "cannot_proceed") = true
        ∧ parseXMLResponse text = cannotProceedResp text)
    ∨ (¬ jsTrim text = [] ∧ hasTag text (strg "clarification_needed") = false
        ∧ hasTag text (strg "full_plan") = false
        ∧ hasTag text (strg "cannot_proceed") = false
        ∧ parseXMLResponse text =
          { type := strg "error"
            message := some (strg "Could not parse AI response. Please try again.") }) := by
  by_cases h0 : jsTrim text = []
  · exact Or.inl ⟨h0, by unfold parseXMLResponse; rw [if_pos h0]⟩
  · by_cases h1 : hasTag text (strg "clarification_needed") = true
    · refine Or.inr (Or.inl ⟨h0, h1, ?_⟩)
      unfold parseXMLResponse
      rw [if_neg h0, if_pos h1]
    · have h1f : hasTag text (strg "clarification_needed") = false :=
        Bool.not_eq_true _ ▸ Bool.eq_false_iff.mpr (fun h => h1 h)
      by_cases h2 : hasTag text (strg "full_plan") = true
      · refine Or.inr (Or.inr (Or.inl ⟨h0, h1f, h2, ?_⟩))
        unfold parseXMLResponse
        rw [if_neg h0, if_neg h1, if_pos h2]
      · have h2f : hasTag text (strg "full_plan") = false :=
          Bool.eq_false_iff.mpr (fun h => h2 h)
        by_cases h3 : hasTag text (strg "cannot_proceed") = true
        · refine Or.inr (Or.inr (Or.inr (Or.inl ⟨h0, h1f, h2f, h3, ?_⟩)))
          unfold parseXMLResponse
          rw [if_neg h0, if_neg h1, if_neg h2, if_pos h3]
        · have h3f : hasTag text (strg "cannot_proceed") = false :=
            Bool.eq_false_iff.mpr (fun h => h3 h)
          refine Or.inr (Or.inr (Or.inr (Or.inr ⟨h0, h1f, h2f, h3f, ?_⟩)))
          unfold parseXMLResponse
          rw [if_neg h0, if_neg h1, if_neg h2, if_neg h3]

/-- The type field of the clarification outcome. -/
theorem clarResp_type (text : Str) :
    (clarResp text).type = strg "clarification_needed" := rfl

/-- The type field of the full-plan outcome. -/
theorem fullPlanResp_type (text : Str) :
    (fullPlanResp text).type = strg "full_plan" := rfl

/-- The type field of the cannot-proceed outcome. -/
theorem cannotProceedResp_type (text : Str) :
    (cannotProceedResp text).type = strg "cannot_proceed" := rfl

/-!
## Claim theorems
-/

/-- C2: parseXMLResponse returns exactly one outcome chosen by the fixed
precedence clarification_needed, then full_plan, then cannot_proceed: a
present clarification tag forces the clarification outcome even when
the other tags are present, the full_plan outcome occurs exactly when
the clarification tag is absent and the full_plan tag present, and the
cannot_proceed outcome exactly when both others are absent and its tag
present. -/
theorem C2_tag_precedence (text : Str) :
    (hasTag text (strg "clarification_needed") = true →
      (parseXMLResponse text).type = strg "clarification_needed")
    ∧ ((parseXMLResponse text).type = strg "full_plan" ↔
        hasTag text (strg "clarification_needed") = false
          ∧ hasTag text (strg "full_plan") = true)
    ∧ ((parseXMLResponse text).type = strg "cannot_proceed" ↔
        hasTag text (strg "clarification_needed") = false
          ∧ hasTag text (strg "full_plan") = false
          ∧ hasTag text (strg "cannot_proceed") = true) := by
  rcases parseXMLResponse_branches text with
    ⟨h0, hp⟩ | ⟨h0, h1, hp⟩ | ⟨h0, h1, h2, hp⟩ | ⟨h0, h1, h2, h3, hp⟩ | ⟨h0, h1, h2, h3, hp⟩
  · have hc := hasTag_false_of_ws text (strg "clarification_needed") h0
    have hf := hasTag_false_of_ws text (strg "full_plan") h0
    have hcp := hasTag_false_of_ws text (strg "cannot_proceed") h0
    rw [hp]
    refine ⟨fun h => ?_, ?_, ?_⟩
    · rw [hc] at h; cases h
    · exact ⟨fun h => absurd h (by decide), fun ⟨_, h⟩ => by rw [hf] at h; cases h⟩
    · exact ⟨fun h => absurd h (by decide), fun ⟨_, _, h⟩ => by rw [hcp] at h; cases h⟩
  · rw [hp, clarResp_type]
    refine ⟨fun _ => rfl, ?_, ?_⟩
    · exact ⟨fun h => absurd h (by decide), fun ⟨h, _⟩ => by rw [h1] at h; cases h⟩
    · exact ⟨fun h => absurd h (by decide), fun ⟨h, _, _⟩ => by rw [h1] at h; cases h⟩
  · rw [hp, fullPlanResp_type]
    refine ⟨fun h => ?_, ?_, ?_⟩
    · rw [h1] at h; cases h
    · exact ⟨fun _ => ⟨h1, h2⟩, fun _ => rfl⟩
    · exact ⟨fun h => absurd h (by decide), fun ⟨_, h, _⟩ => by rw [h2] at h; cases h⟩
  · rw [hp, cannotProceedResp_type]
    refine ⟨fun h => ?_, ?_, ?_⟩
    · rw [h1] at h; cases h
    · exact ⟨fun h => absurd h (by decide), fun ⟨_, h⟩ => by rw [h2] at h; cases h⟩
    · exact ⟨fun _ => ⟨h1, h2, h3⟩, fun _ => rfl⟩
  · rw [hp]
    refine ⟨fun h => ?_, ?_, ?_⟩
    · rw [h1] at h; cases h
    · exact ⟨fun h => absurd h (by decide), fun ⟨_, h⟩ => by rw [h2] at h; cases h⟩
    · exact ⟨fun h => absurd h (by decide), fun ⟨_, _, h⟩ => by rw [h3] at h; cases h⟩

/-- C2 witness: on a reply containing both the clarification tag and the
full_plan tag, the outcome is clarification_needed. -/
theorem C2_tag_precedence_witness :
    (parseXMLResponse (strg "<clarification_needed> x <full_plan> y")).type
      = strg "clarification_needed" :=
  (C2_tag_precedence (strg "<clarification_needed> x <full_plan> y")).1 (by decide)

/-- C6: parseXMLResponse yields the error outcome exactly when the input
is empty or whitespace-only or contains none of the three opening tags;
in particular a plain sentence with no wrapper tags yields the error
outcome. -/
theorem C6_error_iff (text : Str) :
    ((parseXMLResponse text).type = strg "error" ↔
      (jsTrim text = [] ∨
        (hasTag text (strg "clarification_needed") = false
          ∧ hasTag text (strg "full_plan") = false
          ∧ hasTag text (strg "cannot_proceed") = false)))
    ∧ (parseXMLResponse (strg "I think the client needs help.")).type = strg "error" := by
  refine ⟨?_, by decide⟩
  rcases parseXMLResponse_branches text with
    ⟨h0, hp⟩ | ⟨h0, h1, hp⟩ | ⟨h0, h1, h2, hp⟩ | ⟨h0, h1, h2, h3, hp⟩ | ⟨h0, h1, h2, h3, hp⟩
  · rw [hp]
    exact ⟨fun _ => Or.inl h0, fun _ => rfl⟩
  · rw [hp, clarResp_type]
    refine ⟨fun h => absurd h (by decide), fun hor => ?_⟩
    rcases hor with h0x | ⟨hc, _, _⟩
    · exact absurd h0x h0
    · rw [h1] at hc; cases hc
  · rw [hp, fullPlanResp_type]
    refine ⟨fun h => absurd h (by decide), fun hor => ?_⟩
    rcases hor with h0x | ⟨_, hf, _⟩
    · exact absurd h0x h0
    · rw [h2] at hf; cases hf
  · rw [hp, cannotProceedResp_type]
    refine ⟨fun h => absurd h (by decide), fun hor => ?_⟩
    rcases hor with h0x | ⟨_, _, hcp⟩
    · exact absurd h0x h0
    · rw [h3] at hcp; cases hcp
  · rw [hp]
    exact ⟨fun _ => Or.inr ⟨h1, h2, h3⟩, fun _ => rfl⟩

/-- C10: parseXMLResponse is total by construction (a structurally and
fuel-terminating function defined on every input string) and always
returns exactly one object whose type field is one of error,
clarification_needed, full_plan or cannot_proceed, carrying exactly
the fields declared for that variant; the clarification variant always
carries a non-empty question list. -/
theorem C10_total_shape (text : Str) :
    ((parseXMLResponse text).type = strg "error"
      ∧ (parseXMLResponse text).message.isSome = true
      ∧ (parseXMLResponse text).thinking = none
      ∧ (parseXMLResponse text).questions = none
      ∧ (parseXMLResponse text).proposal = none
      ∧ (parseXMLResponse text).contentStrategy = none
      ∧ (parseXMLResponse text).sampleAds = none)
    ∨ ((parseXMLResponse text).type = strg "clarification_needed"
      ∧ (parseXMLResponse text).thinking = some (thinkingOf text)
      ∧ (∃ qs, (parseXMLResponse text).questions = some qs ∧ qs ≠ [])
      ∧ (parseXMLResponse text).message = none
      ∧ (parseXMLResponse text).proposal = none
      ∧ (parseXMLResponse text).contentStrategy = none
      ∧ (parseXMLResponse text).sampleAds = none)
    ∨ ((parseXMLResponse text).type = strg "full_plan"
      ∧ (parseXMLResponse text).thinking = some (thinkingOf text)
      ∧ (parseXMLResponse text).proposal.isSome = true
      ∧ (parseXMLResponse text).contentStrategy.isSome = true
      ∧ (parseXMLResponse text).sampleAds.isSome = true
      ∧ (parseXMLResponse text).message = none
      ∧ (parseXMLResponse text).questions = none)
    ∨ ((parseXMLResponse text).type = strg "cannot_proceed"
      ∧ (parseXMLResponse text).thinking = some (thinkingOf text)
      ∧ (parseXMLResponse text).message.isSome = true
      ∧ (parseXMLResponse text).questions = none
      ∧ (parseXMLResponse text).proposal = none
      ∧ (parseXMLResponse text).contentStrategy = none
      ∧ (parseXMLResponse text).sampleAds = none) := by
  rcases parseXMLResponse_branches text with
    ⟨h0, hp⟩ | ⟨h0, h1, hp⟩ | ⟨h0, h1, h2, hp⟩ | ⟨h0, h1, h2, h3, hp⟩ | ⟨h0, h1, h2, h3, hp⟩
  · rw [hp]
    exact Or.inl ⟨rfl, rfl, rfl, rfl, rfl, rfl, rfl⟩
  · rw [hp]
    exact Or.inr (Or.inl ⟨rfl, rfl,
      ⟨clarQuestions text, rfl, clarQuestions_ne_nil text⟩, rfl, rfl, rfl, rfl⟩)
  · rw [hp]
    exact Or.inr (Or.inr (Or.inl ⟨rfl, rfl, rfl, rfl, rfl, rfl, rfl⟩))
  · rw [hp]
    exact Or.inr (Or.inr (Or.inr ⟨rfl, rfl, rfl, rfl, rfl, rfl, rfl⟩))
  · rw [hp]
    exact Or.inl ⟨rfl, rfl, rfl, rfl, rfl, rfl, rfl⟩

/-- C3: whenever the clarification tag is present but no well-formed
question tag matches and the line-based fallback derivation yields
nothing, the returned question list is exactly the one fixed
placeholder question. -/
theorem C3_placeholder_question (text : Str)
    (h1 : hasTag text (strg "clarification_needed") = true)
    (h2 : taggedQuestions text = [])
    (h3 : deriveQuestionsFromText (fallbackSource text) = []) :
    (parseXMLResponse text).questions = some [placeholderQuestion] := by
  have h0 := hasTag_trim_ne h1
  unfold parseXMLResponse
  rw [if_neg h0, if_pos h1]
  show some (clarQuestions text) = some [placeholderQuestion]
  unfold clarQuestions
  rw [h2, h3]
  rfl

/-- The concrete input of the C3 witness: a clarification block with no
questions and no prose. -/
def clarEmptyText : Str := strg "<clarification_needed></clarification_needed>"

/-- C3 witness: the empty clarification block satisfies the hypotheses
and receives exactly the placeholder question. -/
theorem C3_placeholder_question_witness :
    hasTag clarEmptyText (strg "clarification_needed") = true
    ∧ taggedQuestions clarEmptyText = []
    ∧ deriveQuestionsFromText (fallbackSource clarEmptyText) = []
    ∧ (parseXMLResponse clarEmptyText).questions = some [placeholderQuestion] :=
  ⟨by decide, by decide, by decide,
    C3_placeholder_question clarEmptyText (by decide) (by decide) (by decide)⟩

theorem dropPfxCI_eq : ∀ {p s r : Str}, dropPfxCI p s = some r →
    ∃ mid, s = mid ++ r ∧ toLowerStr mid = p := by
  intro p
  induction p with
  | nil =>
    intro s r h
    unfold dropPfxCI at h
    exact ⟨[], Option.some.inj h, rfl⟩
  | cons x xs ih =>
    intro s r h
    cases s with
    | nil => cases h
    | cons c cs =>
      by_cases hx : x = toLowerCh c
      · unfold dropPfxCI at h
        rw [if_pos hx] at h
        obtain ⟨mid2, hm, hl⟩ := ih h
        refine ⟨c :: mid2, ?_, ?_⟩
        · rw [hm]
          rfl
        · show toLowerCh c :: toLowerStr mid2 = x :: xs
          rw [hl, hx]
      · unfold dropPfxCI at h
        rw [if_neg hx] at h
        cases h

theorem dropPfxCI_of_toLower : ∀ (mid y : Str),
    dropPfxCI (toLowerStr mid) (mid ++ y) = some y := by
  intro mid
  induction mid with
  | nil => intro y; rfl
  | cons c m ih =>
    intro y
    show dropPfxCI (toLowerCh c :: toLowerStr m) (c :: (m ++ y)) = some y
    unfold dropPfxCI
    rw [if_pos rfl]
    exact ih y

theorem splitAtSubstrCI_eq {pat : Str} :
    ∀ s b a : Str, splitAtSubstrCI pat s = some (b, a) →
      ∃ mid, s = b ++ (mid ++ a) ∧ toLowerStr mid = pat := by
  intro s
  induction s with
  | nil =>
    intro b a h
    unfold splitAtSubstrCI at h
    cases hd : dropPfxCI pat [] with
    | none => rw [hd] at h; cases h
    | some r =>
      rw [hd] at h
      injection h with h2
      obtain ⟨mid, hm, hl⟩ := dropPfxCI_eq hd
      have hb : b = [] := (congrArg Prod.fst h2).symm
      have ha : a = r := (congrArg Prod.snd h2).symm
      refine ⟨mid, ?_, hl⟩
      rw [hb, ha, List.nil_append]
      exact hm
  | cons c rest ih =>
    intro b a h
    unfold splitAtSubstrCI at h
    cases hd : dropPfxCI pat (c :: rest) with
    | some r =>
      rw [hd] at h
      injection h with h2
      obtain ⟨mid, hm, hl⟩ := dropPfxCI_eq hd
      have hb : b = [] := (congrArg Prod.fst h2).symm
      have ha : a = r := (congrArg Prod.snd h2).symm
      refine ⟨mid, ?_, hl⟩
      rw [hb, ha, List.nil_append]
      exact hm
    | none =>
      rw [hd] at h
      cases hrec : splitAtSubstrCI pat rest with
      | none => rw [hrec] at h; cases h
      | some p =>
        obtain ⟨b2, a2⟩ := p
        rw [hrec] at h
        injection h with h2
        have hb : b = c :: b2 := (congrArg Prod.fst h2).symm
        have ha : a = a2 := (congrArg Prod.snd h2).symm
        obtain ⟨mid, hm, hl⟩ := ih b2 a2 hrec
        refine ⟨mid, ?_, hl⟩
        rw [hb, ha, List.cons_append, hm]

theorem splitAtSubstrCI_leftmost {pat : Str} :
    ∀ s b a : Str, splitAtSubstrCI pat s = some (b, a) →
      ∀ x mid y : Str, s = x ++ (mid ++ y) → toLowerStr mid = pat →
        b.length ≤ x.length := by
  intro s
  induction s with
  | nil =>
    intro b a h x mid y hs hl
    unfold splitAtSubstrCI at h
    cases hd : dropPfxCI pat [] with
    | none => rw [hd] at h; cases h
    | some r =>
      rw [hd] at h
      injection h with h2
      have hb : b = [] := (congrArg Prod.fst h2).symm
      rw [hb]
      exact Nat.zero_le _
  | cons c rest ih =>
    intro b a h x mid y hs hl
    unfold splitAtSubstrCI at h
    cases hd : dropPfxCI pat (c :: rest) with
    | some r =>
      rw [hd] at h
      injection h with h2
      have hb : b = [] := (congrArg Prod.fst h2).symm
      rw [hb]
      exact Nat.zero_le _
    | none =>
      rw [hd] at h
      cases hrec : splitAtSubstrCI pat rest with
      | none => rw [hrec] at h; cases h
      | some p =>
        obtain ⟨b2, a2⟩ := p
        rw [hrec] at h
        injection h with h2
        have hb : b = c :: b2 := (congrArg Prod.fst h2).symm
        cases x with
        | nil =>
          exfalso
          have hpt : dropPfxCI pat (mid ++ y) = some y := by
            rw [← hl]
            exact dropPfxCI_of_toLower mid y
          rw [List.nil_append] at hs
          rw [hs] at hd
          rw [hd] at hpt
          cases hpt
        | cons cx xs =>
          rw [List.cons_append] at hs
          injection hs with hc hrest
          have := ih b2 a2 hrec xs mid y hrest hl
          rw [hb]
          simp only [List.length_cons]
          omega

theorem foldlMin_props (g : Str → Option Nat) :
    ∀ (l : List Str) (acc : Nat),
      (l.foldl (fun acc t =>
          match g t with
          | some i => if i < acc then i else acc
          | none => acc) acc ≤ acc)
      ∧ (∀ t ∈ l, ∀ i, g t = some i →
          l.foldl (fun acc t =>
            match g t with
            | some i => if i < acc then i else acc
            | none => acc) acc ≤ i)
      ∧ (l.foldl (fun acc t =>
            match g t with
            | some i => if i < acc then i else acc
            | none => acc) acc = acc
        ∨ ∃ t ∈ l, g t = some (l.foldl (fun acc t =>
              match g t with
              | some i => if i < acc then i else acc
              | none => acc) acc)) := by
  intro l
  induction l with
  | nil =>
    intro acc
    exact ⟨Nat.le_refl _, fun t ht => absurd ht (List.not_mem_nil t), Or.inl rfl⟩
  | cons t ts ih =>
    intro acc
    simp only [List.foldl_cons]
    cases hidx : g t with
    | none =>
      simp only [hidx]
      obtain ⟨ih1, ih2, ih3⟩ := ih acc
      refine ⟨ih1, ?_, ?_⟩
      · intro u hu i hi
        rcases List.mem_cons.mp hu with rfl | hu2
        · rw [hidx] at hi; cases hi
        · exact ih2 u hu2 i hi
      · rcases ih3 with h | ⟨u, hu, h⟩
        · exact Or.inl h
        · exact Or.inr ⟨u, List.mem_cons_of_mem t hu, h⟩
    | some j =>
      simp only [hidx]
      by_cases hj : j < acc
      · rw [if_pos hj]
        obtain ⟨ih1, ih2, ih3⟩ := ih j
        refine ⟨Nat.le_trans ih1 (Nat.le_of_lt hj), ?_, ?_⟩
        · intro u hu i hi
          rcases List.mem_cons.mp hu with rfl | hu2
          · rw [hidx] at hi
            injection hi with hij
            rw [← hij]
            exact ih1
          · exact ih2 u hu2 i hi
        · rcases ih3 with h | ⟨u, hu, h⟩
          · refine Or.inr ⟨t, List.mem_cons_self t ts, ?_⟩
            rw [h]
            exact hidx
          · exact Or.inr ⟨u, List.mem_cons_of_mem t hu, h⟩
      · rw [if_neg hj]
        obtain ⟨ih1, ih2, ih3⟩ := ih acc
        refine ⟨ih1, ?_, ?_⟩
        · intro u hu i hi
          rcases List.mem_cons.mp hu with rfl | hu2
          · rw [hidx] at hi
            injection hi with hij
            rw [← hij]
            exact Nat.le_trans ih1 (Nat.le_of_not_lt hj)
          · exact ih2 u hu2 i hi
        · rcases ih3 with h | ⟨u, hu, h⟩
          · exact Or.inl h
          · exact Or.inr ⟨u, List.mem_cons_of_mem t hu, h⟩

/-- C4: the universal section-extraction rule of the full-plan branch,
together with its concrete instances. For every reply and section tag:
with no opening-tag match the section is empty; when a closing tag
follows the leftmost opening, the content is exactly the trimmed text
between the end of the opening tag and the first closing occurrence
(witnessed by a decomposition, and no occurrence starts earlier); and
when the closing tag is missing, the content is the trimmed slice from
the end of the opening tag up to a boundary index that is at most the
end of text, at or before every occurrence of the next expected
section openings and of the outer closing full_plan tag, and is itself
one of those occurrences unless it is the end of text. In particular,
the spec vector with an unclosed content_strategy and absent
sample_ads yields proposal A, contentStrategy B and empty sampleAds,
and the other two instances cover closing tags present and cuts at the
next section opening and at the closing full_plan tag. -/
theorem C4_section_extraction :
    (∀ tag text : Str, findOpenRest tag text = none →
        extractSectionContent tag text = [])
    ∧ (∀ tag text r content rest : Str,
        findOpenRest tag text = some r →
        splitAtSubstrCI ('<' :: '/' :: (tag ++ ['>'])) r = some (content, rest) →
        extractSectionContent tag text = jsTrim content
        ∧ (∃ mid, r = content ++ (mid ++ rest)
            ∧ toLowerStr mid = '<' :: '/' :: (tag ++ ['>']))
        ∧ (∀ x mid y : Str, r = x ++ (mid ++ y) →
            toLowerStr mid = '<' :: '/' :: (tag ++ ['>']) →
            content.length ≤ x.length))
    ∧ (∀ tag text r : Str,
        findOpenRest tag text = some r →
        splitAtSubstrCI ('<' :: '/' :: (tag ++ ['>'])) r = none →
        ∃ fb : Nat,
          extractSectionContent tag text = jsTrim (r.take fb)
          ∧ fb ≤ r.length
          ∧ (∀ t ∈ (sectionsAfter tag).map (fun n => '<' :: n) ++ [strg "</full_plan"],
              ∀ i, idxOfSubstrCI t r = some i → fb ≤ i)
          ∧ (fb = r.length
            ∨ ∃ t ∈ (sectionsAfter tag).map (fun n => '<' :: n) ++ [strg "</full_plan"],
                idxOfSubstrCI t r = some fb))
    ∧ parseXMLResponse (strg "<full_plan><proposal>A</proposal><content_strategy>B</content_strategy><sample_ads>C</sample_ads></full_plan>")
      = { type := strg "full_plan", thinking := some none
          proposal := some (strg "A")
          contentStrategy := some (strg "B")
          sampleAds := some (strg "C") }
    ∧ parseXMLResponse (strg "<full_plan><proposal>A</proposal><content_strategy>B")
      = { type := strg "full_plan", thinking := some none
          proposal := some (strg "A")
          contentStrategy := some (strg "B")
          sampleAds := some [] }
    ∧ parseXMLResponse (strg "<full_plan><proposal>A<content_strategy>B</full_plan>")
      = { type := strg "full_plan", thinking := some none
          proposal := some (strg "A")
          contentStrategy := some (strg "B")
          sampleAds := some [] } := by
  refine ⟨?_, ?_, ?_, by decide, by decide, by decide⟩
  · intro tag text h
    unfold extractSectionContent
    rw [h]
  · intro tag text r content rest hopen hclose
    refine ⟨?_, splitAtSubstrCI_eq r content rest hclose,
      splitAtSubstrCI_leftmost r content rest hclose⟩
    unfold extractSectionContent
    rw [hopen]
    dsimp only
    rw [hclose]
  · intro tag text r hopen hclose
    refine ⟨((sectionsAfter tag).map (fun n => '<' :: n) ++ [strg "</full_plan"]).foldl
        (fun acc t =>
          match idxOfSubstrCI t r with
          | some i => if i < acc then i else acc
          | none => acc) r.length, ?_, ?_, ?_, ?_⟩
    · unfold extractSectionContent
      rw [hopen]
      dsimp only
      rw [hclose]
    · exact (foldlMin_props (fun t => idxOfSubstrCI t r) _ r.length).1
    · exact (foldlMin_props (fun t => idxOfSubstrCI t r) _ r.length).2.1
    · exact (foldlMin_props (fun t => idxOfSubstrCI t r) _ r.length).2.2

/-- C4 witness: the universal rule applied to the spec vector, with each
hypothesis discharged by evaluation: the closed proposal section is
extracted between its tags, the absent sample_ads section is empty,
and the unclosed content_strategy section is a bounded slice of the
text after its opening tag. -/
theorem C4_section_extraction_witness :
    extractSectionContent (strg "proposal")
        (strg "<full_plan><proposal>A</proposal><content_strategy>B")
      = jsTrim (strg "A")
    ∧ extractSectionContent (strg "sample_ads")
        (strg "<full_plan><proposal>A</proposal><content_strategy>B") = []
    ∧ ∃ fb : Nat,
        extractSectionContent (strg "content_strategy")
            (strg "<full_plan><proposal>A</proposal><content_strategy>B")
          = jsTrim ((strg "B").take fb)
        ∧ fb ≤ (strg "B").length := by
  refine ⟨?_, ?_, ?_⟩
  · exact (C4_section_extraction.2.1 (strg "proposal")
      (strg "<full_plan><proposal>A</proposal><content_strategy>B")
      (strg "A</proposal><content_strategy>B") (strg "A") (strg "<content_strategy>B")
      (by decide) (by decide)).1
  · exact C4_section_extraction.1 (strg "sample_ads")
      (strg "<full_plan><proposal>A</proposal><content_strategy>B") (by decide)
  · obtain ⟨fb, h1, h2, h3, h4⟩ := C4_section_extraction.2.2.1 (strg "content_strategy")
      (strg "<full_plan><proposal>A</proposal><content_strategy>B")
      (strg "B") (by decide) (by decide)
    exact ⟨fb, h1, h2⟩

theorem dropWhile_head_not {p : Char → Bool} :
    ∀ l : Str, ∀ c t, l.dropWhile p = c :: t → p c = false := by
  intro l
  induction l with
  | nil => intro c t h; cases h
  | cons a r ih =>
    intro c t h
    rw [List.dropWhile_cons] at h
    by_cases ha : p a = true
    · rw [if_pos ha] at h
      exact ih c t h
    · rw [if_neg ha] at h
      cases h
      simpa using ha

theorem endsWithQ_decomp {l : Str} (h : endsWithQ l = true) : ∃ m, l = m ++ ['?'] := by
  unfold endsWithQ at h
  cases hr : l.reverse with
  | nil => rw [hr] at h; cases h
  | cons c t =>
    rw [hr] at h
    have hc : c = '?' := by
      simpa [decide_eq_true_eq] using h
    subst hc
    refine ⟨t.reverse, ?_⟩
    have := congrArg List.reverse hr
    simpa using this

theorem trimLeft_endsQ : ∀ m : Str, ∃ m2, trimLeft (m ++ ['?']) = m2 ++ ['?'] := by
  intro m
  induction m with
  | nil => exact ⟨[], by decide⟩
  | cons c r ih =>
    by_cases hc : wsCh c = true
    · obtain ⟨m2, hm⟩ := ih
      refine ⟨m2, ?_⟩
      show List.dropWhile wsCh (c :: (r ++ ['?'])) = m2 ++ ['?']
      rw [List.dropWhile_cons, if_pos hc]
      exact hm
    · refine ⟨c :: r, ?_⟩
      show List.dropWhile wsCh (c :: (r ++ ['?'])) = (c :: r) ++ ['?']
      rw [List.dropWhile_cons, if_neg hc]
      rfl

theorem trimRight_endsQ (m : Str) : trimRight (m ++ ['?']) = m ++ ['?'] := by
  unfold trimRight
  have hq : wsCh '?' = false := by decide
  rw [List.reverse_append]
  simp only [List.reverse_cons, List.reverse_nil, List.nil_append, List.singleton_append]
  rw [List.dropWhile_cons, if_neg (by simp [hq])]
  simp

theorem jsTrim_endsQ (m : Str) : ∃ m2, jsTrim (m ++ ['?']) = m2 ++ ['?'] := by
  unfold jsTrim
  obtain ⟨m2, hm⟩ := trimLeft_endsQ m
  rw [hm, trimRight_endsQ]
  exact ⟨m2, rfl⟩

/-- C7: the question-normalization pipeline maps the two spec vectors to
their expected normal forms, and in general every normalized line is
either empty or ends with a question mark (appended when absent,
obtained by truncating after the last one otherwise). -/
theorem C7_question_normalization :
    normalizeQuestionText (strg "1) what is the budget") = strg "what is the budget?"
    ∧ normalizeQuestionText (strg "**Question:** Who is the audience?") = strg "Who is the audience?"
    ∧ ∀ line : Str, normalizeQuestionText line = []
        ∨ ∃ m, normalizeQuestionText line = m ++ ['?'] := by
  refine ⟨by decide, by decide, fun line => ?_⟩
  unfold normalizeQuestionText
  by_cases h0 : line = []
  · rw [if_pos h0]
    exact Or.inl rfl
  · rw [if_neg h0]
    dsimp only
    by_cases h1 : sanitizeQuestionLine (collapseWs (replaceTags ' ' (line.length + 1) line)) = []
    · rw [if_pos h1]
      exact Or.inl rfl
    · rw [if_neg h1]
      generalize jsTrim (collapseWs (sanitizeQuestionLine
        (collapseWs (replaceTags ' ' (line.length + 1) line)))) = trimmed
      by_cases h2 : trimmed = []
      · rw [if_pos h2]
        exact Or.inl rfl
      · rw [if_neg h2]
        by_cases h3 : endsWithQ trimmed = true
        · rw [if_pos h3]
          exact Or.inr (endsWithQ_decomp h3)
        · rw [if_neg h3]
          by_cases h4 : (trimmed.reverse.dropWhile (fun c => ¬ (c = '?'))).reverse = []
          · rw [if_pos h4]
            exact Or.inr ⟨trimmed, rfl⟩
          · rw [if_neg h4]
            cases hd : trimmed.reverse.dropWhile (fun c => ¬ (c = '?')) with
            | nil => exact absurd (by rw [hd]; rfl) h4
            | cons c t =>
              have hc : c = '?' := by
                have := dropWhile_head_not (p := fun c => ¬ (c = '?'))
                  trimmed.reverse c t hd
                simpa using this
              subst hc
              rw [List.reverse_cons]
              exact Or.inr (jsTrim_endsQ t.reverse)

/-- The distinctness relation of the case-insensitive dedup. -/
def lowerNe (a b : Str) : Prop := toLowerStr a ≠ toLowerStr b

theorem addAll_cons_skip {seen : List Str} {raw : Str} {rest : List Str}
    (hn : normalizeQuestionText raw = []) :
    addAll seen (raw :: rest) = addAll seen rest := by
  simp only [addAll]
  rw [if_pos hn]

theorem addAll_cons_dup {seen : List Str} {raw : Str} {rest : List Str}
    (hn : ¬ normalizeQuestionText raw = [])
    (hdup : seen.contains (toLowerStr (normalizeQuestionText raw)) = true) :
    addAll seen (raw :: rest) = addAll seen rest := by
  simp only [addAll]
  rw [if_neg hn, if_pos hdup]

theorem addAll_cons_new {seen : List Str} {raw : Str} {rest : List Str}
    (hn : ¬ normalizeQuestionText raw = [])
    (hdup : seen.contains (toLowerStr (normalizeQuestionText raw)) = false) :
    addAll seen (raw :: rest)
      = ((addAll (toLowerStr (normalizeQuestionText raw) :: seen) rest).1,
          normalizeQuestionText raw
            :: (addAll (toLowerStr (normalizeQuestionText raw) :: seen) rest).2) := by
  simp only [addAll]
  rw [if_neg hn, if_neg (by rw [hdup]; exact Bool.false_ne_true)]

theorem addAll_props : ∀ raws seen : List Str,
    ((addAll seen raws).2.Pairwise lowerNe)
    ∧ (∀ q ∈ (addAll seen raws).2, seen.contains (toLowerStr q) = false)
    ∧ (∀ k : Str, seen.contains k = true → (addAll seen raws).1.contains k = true)
    ∧ (∀ q ∈ (addAll seen raws).2, (addAll seen raws).1.contains (toLowerStr q) = true) := by
  intro raws
  induction raws with
  | nil =>
    intro seen
    exact ⟨List.Pairwise.nil, fun q hq => absurd hq (List.not_mem_nil q),
      fun k hk => hk, fun q hq => absurd hq (List.not_mem_nil q)⟩
  | cons raw rest ih =>
    intro seen
    by_cases hn : normalizeQuestionText raw = []
    · rw [addAll_cons_skip hn]
      exact ih seen
    · by_cases hdup : seen.contains (toLowerStr (normalizeQuestionText raw)) = true
      · rw [addAll_cons_dup hn hdup]
        exact ih seen
      · have hdupf : seen.contains (toLowerStr (normalizeQuestionText raw)) = false :=
          Bool.eq_false_iff.mpr hdup
        rw [addAll_cons_new hn hdupf]
        obtain ⟨ihP, ihNotSeen, ihMono, ihIn⟩ :=
          ih (toLowerStr (normalizeQuestionText raw) :: seen)
        refine ⟨?_, ?_, ?_, ?_⟩
        · refine List.Pairwise.cons ?_ ihP
          intro b hb heq
          have hns := ihNotSeen b hb
          rw [← heq] at hns
          have hself : (toLowerStr (normalizeQuestionText raw) :: seen).contains
              (toLowerStr (normalizeQuestionText raw)) = true := by simp
          rw [hns] at hself
          cases hself
        · intro q hq
          rcases List.mem_cons.mp hq with rfl | hq2
          · exact hdupf
          · have hns := ihNotSeen q hq2
            have hnot : ¬ toLowerStr q ∈ (toLowerStr (normalizeQuestionText raw) :: seen) := by
              simp_all
            have : ¬ toLowerStr q ∈ seen := fun hm => hnot (List.mem_cons_of_mem _ hm)
            simpa using this
        · intro k hk
          exact ihMono k (by simp_all)
        · intro q hq
          rcases List.mem_cons.mp hq with rfl | hq2
          · exact ihMono _ (by simp)
          · exact ihIn q hq2

theorem addAll_sublist : ∀ raws seen : List Str,
    (addAll seen raws).2.Sublist (raws.map normalizeQuestionText) := by
  intro raws
  induction raws with
  | nil => intro seen; exact List.Sublist.refl []
  | cons raw rest ih =>
    intro seen
    by_cases hn : normalizeQuestionText raw = []
    · rw [addAll_cons_skip hn, List.map_cons]
      exact List.Sublist.cons _ (ih seen)
    · by_cases hdup : seen.contains (toLowerStr (normalizeQuestionText raw)) = true
      · rw [addAll_cons_dup hn hdup, List.map_cons]
        exact List.Sublist.cons _ (ih seen)
      · have hdupf : seen.contains (toLowerStr (normalizeQuestionText raw)) = false :=
          Bool.eq_false_iff.mpr hdup
        rw [addAll_cons_new hn hdupf, List.map_cons]
        exact List.Sublist.cons₂ _ (ih _)

theorem deriveLoop_le : ∀ lines seen cnt, cnt < MAX_FALLBACK_QUESTIONS →
    (deriveLoop seen cnt lines).length + cnt ≤ MAX_FALLBACK_QUESTIONS := by
  intro lines
  induction lines with
  | nil =>
    intro seen cnt hc
    simp only [deriveLoop, List.length_nil]
    omega
  | cons line rest ih =>
    intro seen cnt hc
    unfold deriveLoop
    by_cases hn : normalizeQuestionText line = []
    · rw [if_pos hn]
      exact ih seen cnt hc
    · rw [if_neg hn]
      by_cases hdup : seen.contains (toLowerStr (normalizeQuestionText line)) = true
      · simp only [hdup, if_pos]
        rw [if_neg (Nat.not_le_of_lt hc)]
        exact ih seen cnt hc
      · have hdupf := Bool.eq_false_iff.mpr hdup
        simp only [hdupf, Bool.false_eq_true, if_false]
        by_cases hfull : MAX_FALLBACK_QUESTIONS ≤ cnt + 1
        · rw [if_pos hfull]
          simp only [List.length_cons, List.length_nil]
          omega
        · rw [if_neg hfull]
          have := ih (toLowerStr (normalizeQuestionText line) :: seen) (cnt + 1)
            (Nat.lt_of_not_le hfull)
          simp only [List.length_cons]
          omega

theorem deriveQuestionsFromText_le (s : Str) :
    (deriveQuestionsFromText s).length ≤ MAX_FALLBACK_QUESTIONS := by
  unfold deriveQuestionsFromText
  by_cases h : jsTrim s = []
  · rw [if_pos h]
    exact Nat.zero_le _
  · rw [if_neg h]
    have := deriveLoop_le (splitOnNl (replaceTags '\n' (s.length + 1) s)) [] 0 (by decide)
    omega

theorem clarQuestions_pairwise (text : Str) : (clarQuestions text).Pairwise lowerNe := by
  unfold clarQuestions
  dsimp only
  by_cases h : (addAll [] (taggedQuestions text)).2
      ++ (addAll (addAll [] (taggedQuestions text)).1
          (deriveQuestionsFromText (fallbackSource text))).2 = []
  · rw [if_pos h]
    exact List.pairwise_singleton _ _
  · rw [if_neg h]
    obtain ⟨hP1, _, _, hIn1⟩ := addAll_props (taggedQuestions text) []
    obtain ⟨hP2, hNot2, _, _⟩ := addAll_props
      (deriveQuestionsFromText (fallbackSource text)) (addAll [] (taggedQuestions text)).1
    rw [List.pairwise_append]
    refine ⟨hP1, hP2, ?_⟩
    intro a ha b hb heq
    have h1 := hIn1 a ha
    have h2 := hNot2 b hb
    rw [heq] at h1
    rw [h1] at h2
    cases h2

theorem clarQuestions_sublist (text : Str) :
    clarQuestions text = [placeholderQuestion]
    ∨ (clarQuestions text).Sublist
        ((taggedQuestions text ++ deriveQuestionsFromText (fallbackSource text)).map
            normalizeQuestionText) := by
  unfold clarQuestions
  dsimp only
  by_cases h : (addAll [] (taggedQuestions text)).2
      ++ (addAll (addAll [] (taggedQuestions text)).1
          (deriveQuestionsFromText (fallbackSource text))).2 = []
  · rw [if_pos h]
    exact Or.inl rfl
  · rw [if_neg h]
    refine Or.inr ?_
    rw [List.map_append]
    exact List.Sublist.append (addAll_sublist (taggedQuestions text) [])
      (addAll_sublist (deriveQuestionsFromText (fallbackSource text)) _)

/-- C5 counterexample input: a clarification reply carrying eleven
distinct well-formed question tags. -/
def elevenQuestionText : Str :=
  strg "<clarification_needed><question>q0</question><question>q1</question><question>q2</question><question>q3</question><question>q4</question><question>q5</question><question>q6</question><question>q7</question><question>q8</question><question>q9</question><question>qq</question>"

set_option maxRecDepth 10000 in
/-- C5 counterexample: the claim says the returned question list contains
at most 10 questions in total, but on a reply with eleven distinct
question tags the parser returns all eleven: the 10-question cap of the
source applies only to the fallback-derived list. -/
theorem C5_cap_counterexample :
    ¬ (((parseXMLResponse elevenQuestionText).questions.getD []).length ≤ 10) := by
  decide

/-- C5 amended: the returned questions list never contains two entries
equal after lowercasing, and preserves first-seen order: aside from the
placeholder case it is an order-preserving selection from the
normalized tag-extracted questions followed by the normalized
fallback-derived ones; the fallback-derived list is capped at 10, but
tag-extracted questions are not capped, so the total may exceed 10. -/
theorem C5_dedup_order_and_fallback_cap :
    (∀ text : Str, ((parseXMLResponse text).questions.getD []).Pairwise lowerNe)
    ∧ (∀ s : Str, (deriveQuestionsFromText s).length ≤ MAX_FALLBACK_QUESTIONS)
    ∧ (∀ text : Str, clarQuestions text = [placeholderQuestion]
        ∨ (clarQuestions text).Sublist
          ((taggedQuestions text ++ deriveQuestionsFromText (fallbackSource text)).map
              normalizeQuestionText)) := by
  refine ⟨fun text => ?_, deriveQuestionsFromText_le, clarQuestions_sublist⟩
  rcases parseXMLResponse_branches text with
    ⟨h0, hp⟩ | ⟨h0, h1, hp⟩ | ⟨h0, h1, h2, hp⟩ | ⟨h0, h1, h2, h3, hp⟩ | ⟨h0, h1, h2, h3, hp⟩
  · rw [hp]; exact List.Pairwise.nil
  · rw [hp]; exact clarQuestions_pairwise text
  · rw [hp]; exact List.Pairwise.nil
  · rw [hp]; exact List.Pairwise.nil
  · rw [hp]; exact List.Pairwise.nil

theorem parseUploadedFiles_append (env : ExtractEnv) :
    ∀ xs ys : List (Option UploadedFile),
      parseUploadedFiles env (xs ++ ys)
        = parseUploadedFiles env xs ++ parseUploadedFiles env ys := by
  intro xs ys
  induction xs with
  | nil => rfl
  | cons x rest ih =>
    show entriesFor env x ++ parseUploadedFiles env (rest ++ ys) = _
    rw [ih]
    simp [parseUploadedFiles, List.append_assoc]

/-- C8: one failing file never aborts extraction of the rest. Whenever
the try block of the per-file loop throws a nonempty message for a
file, the resulting list is the entries of the files before it, then
one error entry carrying that filename and message, then the entries
of the files after it, all in input order. -/
theorem C8_per_file_isolation (env : ExtractEnv) (xs ys : List (Option UploadedFile))
    (f : UploadedFile) (msg : Str)
    (h : processFile env f = Except.error msg) (hm : ¬ msg = []) :
    parseUploadedFiles env (xs ++ some f :: ys)
      = parseUploadedFiles env xs
        ++ ParsedFile.error (filenameOf f) msg :: parseUploadedFiles env ys := by
  rw [parseUploadedFiles_append]
  have hf : parseUploadedFiles env (some f :: ys)
      = ParsedFile.error (filenameOf f) msg :: parseUploadedFiles env ys := by
    show entriesFor env (some f) ++ parseUploadedFiles env ys = _
    unfold entriesFor
    dsimp only
    rw [h]
    dsimp only
    rw [if_neg hm]
    rfl
  rw [hf]

/-- The oracle environment of the C8 witness: reads return the path as
content and every decoder throws. -/
def env0 : ExtractEnv :=
  { statSize := fun _ => none
    readFile := fun p => Except.ok p
    toBase64 := fun b => b
    pdfParse := fun _ => Except.error (strg "boom")
    mammothExtract := fun _ => Except.error (strg "boom")
    xlsxFirstSheetCsv := fun _ => Except.error (strg "boom") }

/-- A first successfully parsed text upload. -/
def fileGood1 : UploadedFile :=
  { originalFilename := some (strg "a.txt"), filepath := some (strg "p1") }

/-- An upload whose extraction throws: its temporary path is missing. -/
def fileBad : UploadedFile :=
  { originalFilename := some (strg "bad.pdf") }

/-- A second successfully parsed text upload. -/
def fileGood2 : UploadedFile :=
  { originalFilename := some (strg "b.txt"), filepath := some (strg "p2") }

/-- C8 witness: between two successfully extracted text files, the failing
file contributes exactly one error entry with its name and message, and
both neighbours are still extracted, in order. -/
theorem C8_per_file_isolation_witness :
    processFile env0 fileBad
      = Except.error (strg "Missing temporary filepath for uploaded file")
    ∧ parseUploadedFiles env0 [some fileGood1, some fileBad, some fileGood2]
      = [ParsedFile.text (strg "a.txt") (strg "p1"),
          ParsedFile.error (strg "bad.pdf") (strg "Missing temporary filepath for uploaded file"),
          ParsedFile.text (strg "b.txt") (strg "p2")] := by
  refine ⟨rfl, ?_⟩
  have h := C8_per_file_isolation env0 [some fileGood1] [some fileGood2] fileBad
    (strg "Missing temporary filepath for uploaded file") rfl (by decide)
  have hform : ([some fileGood1] ++ some fileBad :: [some fileGood2])
      = [some fileGood1, some fileBad, some fileGood2] := rfl
  rw [hform] at h
  rw [h]
  decide

/-- C9: the completion call is retried exactly once without the
extended-thinking mode when the first call fails with an error whose
message matches the reasoning keywords and the mode was enabled: the
final outcome is then exactly that of the single retried call without
the mode, even when it also fails. An error not matching the keyword
detection propagates unmodified, the detection never fires when the
mode is disabled, and whenever it fires the mode was enabled and one
of the reasoning-related keywords occurs in the lowercased message. -/
theorem C9_thinking_retry {M : Type} (cfg : Option ThinkingConfig)
    (create : Option ThinkingConfig → Except ApiError M) (e : ApiError) :
    (create cfg = Except.error e → shouldRetryWithoutThinking cfg e = true →
      createMessageWithRetry cfg create = create none)
    ∧ (create cfg = Except.error e → shouldRetryWithoutThinking cfg e = false →
      createMessageWithRetry cfg create = Except.error e)
    ∧ (shouldRetryWithoutThinking none e = false)
    ∧ (shouldRetryWithoutThinking cfg e = true →
        (∃ c, cfg = some c)
        ∧ (containsSubstr (strg "thinking") (toLowerStr (extractErrorMessage e))
          || containsSubstr (strg "budget_tokens") (toLowerStr (extractErrorMessage e))
          || containsSubstr (strg "unknown key: thinking") (toLowerStr (extractErrorMessage e))
          || containsSubstr (strg "extended thinking") (toLowerStr (extractErrorMessage e))
          || containsSubstr (strg "parameter thinking") (toLowerStr (extractErrorMessage e)))
            = true) := by
  refine ⟨?_, ?_, rfl, ?_⟩
  · intro h hr
    unfold createMessageWithRetry
    rw [h]
    simp only [hr, if_pos]
  · intro h hr
    unfold createMessageWithRetry
    rw [h]
    dsimp only
    rw [if_neg (by rw [hr]; exact Bool.false_ne_true)]
  · intro hr
    cases cfg with
    | none => cases hr
    | some c =>
      refine ⟨⟨c, rfl⟩, ?_⟩
      unfold shouldRetryWithoutThinking at hr
      by_cases hmsg : toLowerStr (extractErrorMessage e) = []
      · rw [if_pos hmsg] at hr
        cases hr
      · rw [if_neg hmsg] at hr
        exact hr

/-- The extended-thinking configuration of the C9 witness. -/
def thinkCfg : ThinkingConfig := ⟨6000⟩

/-- An endpoint error whose message names extended thinking. -/
def errThinking : ApiError :=
  { message := some (strg "extended thinking is not supported for this model") }

/-- A completion oracle rejecting requests with the thinking parameter
and accepting the request without it. -/
def createX : Option ThinkingConfig → Except ApiError Nat
  | some _ => Except.error errThinking
  | none => Except.ok 0

/-- C9 witness: with the mode enabled and a first call failing on a
thinking-related message, the wrapper returns the outcome of the one
retry with the mode disabled. -/
theorem C9_thinking_retry_witness :
    createMessageWithRetry (some thinkCfg) createX = createX none
    ∧ createX none = Except.ok 0 :=
  ⟨(C9_thinking_retry (some thinkCfg) createX errThinking).1 rfl (by decide), rfl⟩

/-- A pasted text of n words: n copies of a one-letter word, each
followed by one space. -/
def mkWords : Nat → Str
  | 0 => []
  | n + 1 => 'w' :: ' ' :: mkWords n

theorem wcAux_mkWords : ∀ n, wcAux false (mkWords n) = n := by
  intro n
  induction n with
  | zero => rfl
  | succ k ih =>
    have hstep : wcAux false (mkWords (k + 1)) = 1 + wcAux false (mkWords k) := rfl
    rw [hstep, ih]
    omega

theorem wordCount_mkWords (n : Nat) : wordCount (mkWords n) = n := wcAux_mkWords n

theorem mem_mkWords : ∀ n, ∀ c ∈ mkWords n, c = 'w' ∨ c = ' ' := by
  intro n
  induction n with
  | zero => intro c hc; cases hc
  | succ k ih =>
    intro c hc
    rcases List.mem_cons.mp hc with rfl | hc2
    · exact Or.inl rfl
    · rcases List.mem_cons.mp hc2 with rfl | hc3
      · exact Or.inr rfl
      · exact ih c hc3

theorem jsTrim_mkWords_succ (n : Nat) : jsTrim (mkWords (n + 1)) ≠ [] :=
  jsTrim_ne_of_mem (List.mem_cons_self 'w' (' ' :: mkWords n)) (by decide)

theorem dropPfxX_eq : ∀ {p s r : Str}, dropPfxX p s = some r → s = p ++ r := by
  intro p
  induction p with
  | nil =>
    intro s r h
    unfold dropPfxX at h
    exact Option.some.inj h
  | cons x xs ih =>
    intro s r h
    cases s with
    | nil => cases h
    | cons c cs =>
      by_cases hx : x = c
      · subst hx
        unfold dropPfxX at h
        rw [if_pos rfl] at h
        have := ih h
        rw [this]
        rfl
      · unfold dropPfxX at h
        rw [if_neg hx] at h
        cases h

theorem splitAtSubstrX_eq {pat : Str} :
    ∀ s b a : Str, splitAtSubstrX pat s = some (b, a) → s = b ++ (pat ++ a) := by
  intro s
  induction s with
  | nil =>
    intro b a h
    unfold splitAtSubstrX at h
    cases hd : dropPfxX pat [] with
    | none => rw [hd] at h; cases h
    | some r =>
      rw [hd] at h
      injection h with h2
      have hpr := dropPfxX_eq hd
      have hb : b = [] := (congrArg Prod.fst h2).symm
      have ha : a = r := (congrArg Prod.snd h2).symm
      rw [hb, ha, List.nil_append, ← hpr]
  | cons c rest ih =>
    intro b a h
    unfold splitAtSubstrX at h
    cases hd : dropPfxX pat (c :: rest) with
    | some r =>
      rw [hd] at h
      injection h with h2
      have hpr := dropPfxX_eq hd
      have hb : b = [] := (congrArg Prod.fst h2).symm
      have ha : a = r := (congrArg Prod.snd h2).symm
      rw [hb, ha, List.nil_append, hpr]
    | none =>
      rw [hd] at h
      cases hrec : splitAtSubstrX pat rest with
      | none => rw [hrec] at h; cases h
      | some p =>
        obtain ⟨b2, a2⟩ := p
        rw [hrec] at h
        injection h with h2
        have hb : b = c :: b2 := (congrArg Prod.fst h2).symm
        have ha : a = a2 := (congrArg Prod.snd h2).symm
        have := ih b2 a2 hrec
        rw [hb, ha, List.cons_append, ← this]

theorem containsSubstr_mem {pat s : Str} (h : containsSubstr pat s = true) :
    ∀ c ∈ pat, c ∈ s := by
  unfold containsSubstr at h
  cases hs : splitAtSubstrX pat s with
  | none => rw [hs] at h; cases h
  | some p =>
    obtain ⟨b, a⟩ := p
    have heq := splitAtSubstrX_eq s b a hs
    intro c hc
    rw [heq]
    simp [hc]

/-- The blob produced for a nonempty pasted text and one text file: the
delimited pasted text followed by the delimited file content, with no
truncation of any kind. -/
theorem buildContextBlob_one_text (t fn content : Str) (ht : ¬ jsTrim t = []) :
    (buildContextBlob (FieldValue.fstr t) [ParsedFile.text fn content]).blob
      = strg "---START_PASTED_TEXT---\n" ++ t ++ strg "\n---END_PASTED_TEXT---\n\n"
        ++ (strg "---START_" ++ formatFileHeader fn ++ strg "---\n" ++ content
            ++ strg "\n---END_" ++ formatFileHeader fn ++ strg "---\n\n") := by
  unfold buildContextBlob
  dsimp only [normalizeTextInput]
  rw [if_neg ht]
  rfl

/-- C1: evaluation of buildContextBlob at the claimed truncation boundary.
With a pasted text of 169,999 words and a ten-word text file, the
produced blob embeds the file content whole after the full pasted text,
carries no truncation marker anywhere, and its embedded words total
170,009, exceeding the 170,000-word ceiling: the source performs no
word-budget truncation at all. -/
theorem C1_no_truncation_in_blob :
    (buildContextBlob (FieldValue.fstr (mkWords 169999))
        [ParsedFile.text (strg "notes.txt") (mkWords 10)]).blob
      = strg "---START_PASTED_TEXT---\n" ++ mkWords 169999
          ++ strg "\n---END_PASTED_TEXT---\n\n"
          ++ (strg "---START_" ++ formatFileHeader (strg "notes.txt") ++ strg "---\n"
              ++ mkWords 10
              ++ strg "\n---END_" ++ formatFileHeader (strg "notes.txt") ++ strg "---\n\n")
    ∧ containsSubstr (strg "[TRUNCATED]")
        (buildContextBlob (FieldValue.fstr (mkWords 169999))
          [ParsedFile.text (strg "notes.txt") (mkWords 10)]).blob = false
    ∧ wordCount (mkWords 169999) = 169999
    ∧ wordCount (mkWords 10) = 10
    ∧ 170000 < wordCount (mkWords 169999) + wordCount (mkWords 10) := by
  have heq := buildContextBlob_one_text (mkWords 169999) (strg "notes.txt") (mkWords 10)
    (jsTrim_mkWords_succ 169998)
  refine ⟨heq, ?_, wordCount_mkWords 169999, wordCount_mkWords 10, ?_⟩
  · cases hc : containsSubstr (strg "[TRUNCATED]")
        (buildContextBlob (FieldValue.fstr (mkWords 169999))
          [ParsedFile.text (strg "notes.txt") (mkWords 10)]).blob with
    | false => rfl
    | true =>
      exfalso
      have hmem : ('[' : Char) ∈ (buildContextBlob (FieldValue.fstr (mkWords 169999))
          [ParsedFile.text (strg "notes.txt") (mkWords 10)]).blob :=
        containsSubstr_mem hc '[' (by decide)
      rw [heq] at hmem
      simp only [List.mem_append] at hmem
      rcases hmem with ((h | h) | h) | ((((((h | h) | h) | h) | h) | h) | h)
      · exact absurd h (by decide)
      · rcases mem_mkWords _ _ h with h2 | h2 <;> exact absurd h2 (by decide)
      · exact absurd h (by decide)
      · exact absurd h (by decide)
      · exact absurd h (by decide)
      · exact absurd h (by decide)
      · rcases mem_mkWords _ _ h with h2 | h2 <;> exact absurd h2 (by decide)
      · exact absurd h (by decide)
      · exact absurd h (by decide)
      · exact absurd h (by decide)
  · rw [wordCount_mkWords, wordCount_mkWords]
    omega
